import Mathlib

/-!
# verify-links (`cmd/vl/main.go`): embedding and verified properties

The program scans a text file for web addresses with the regular expression
`urlRE`, starts one TCP reachability probe (`worker2`) for every address that is
not whitelisted, and aggregates the outcomes into a total error count that
decides the exit status.

Modelling conventions
* Go `string` values are Lean `String`s (valid UTF-8; every candidate produced
  by `urlRE` is pure ASCII), `[]rune(s)` is `s.data`.
* Go `error` is `Option GoError`, `nil` being `none`.
* `resp.Response` is an `Int`; the two counters only ever grow by one per
  candidate and are modelled as `Nat`.
* The external probe `c.CheckAddr(addr, timeout)` is a parameter
  `CheckAddr : String → Duration → Option GoError`.
* The result channel is the list of outcomes in arrival order; receiving from
  it when no outcome is left blocks forever, which is the result `none`.
* An index-out-of-range panic is the result `none`.
* The readiness gate `<-c.WaitReady()` of the producer loop is taken to signal
  for every candidate.
-/

namespace VerifyLinks

/-! ## Regular expression `urlRE` and `FindAllString` -/

/-- Regular expressions, restricted to the constructs used by `urlRE`. All
quantifiers are greedy, alternatives are tried in leftmost-first priority. -/
inductive Re where
  | lit (c : Char)
  | seq (a b : Re)
  | opt (a : Re)
  | rep (p : Char → Bool) (min max : Nat)
  | star (p : Char → Bool)
  | wordb

/-- Go `syntax.IsWordChar`: the ASCII word characters `[0-9A-Za-z_]`. -/
def isWordChar (c : Char) : Bool :=
  (48 ≤ c.toNat && c.toNat ≤ 57) || (65 ≤ c.toNat && c.toNat ≤ 90) ||
  (97 ≤ c.toNat && c.toNat ≤ 122) || c.toNat == 95

/-- Word-character test for a neighbouring position (`none` is the start or the
end of the text). -/
def isWordAt : Option Char → Bool
  | none => false
  | some c => isWordChar c

/-- Character class `[a-zA-Z0-9]`. -/
def alnumClass (c : Char) : Bool :=
  (97 ≤ c.toNat && c.toNat ≤ 122) || (65 ≤ c.toNat && c.toNat ≤ 90) ||
  (48 ≤ c.toNat && c.toNat ≤ 57)

/-- Character class `[-a-zA-Z0-9@:%._\+~#=]` (the host segment). -/
def hostClass (c : Char) : Bool :=
  alnumClass c || c == '-' || c == '@' || c == ':' || c == '%' || c == '.' ||
  c == '_' || c == '+' || c == '~' || c == '#' || c == '='

/-- Character class `[-a-zA-Z0-9!@:%_\+.~#?&\/\/=]` (the path and query). -/
def tailClass (c : Char) : Bool :=
  alnumClass c || c == '-' || c == '!' || c == '@' || c == ':' || c == '%' ||
  c == '_' || c == '+' || c == '.' || c == '~' || c == '#' || c == '?' ||
  c == '&' || c == '/' || c == '='

/-- The character before the current position after consuming `m`, when the
character before `m` was `prev`. -/
def lastChar (prev : Option Char) (m : List Char) : Option Char :=
  match m.getLast? with
  | some c => some c
  | none => prev

/-- Greedy bounded repetition `[p]{min,max}`: all ways to match, as
(consumed, remaining), the longest first. -/
def repGreedy (p : Char → Bool) : Nat → Nat → List Char → List (List Char × List Char)
  | min, 0, cs => if min = 0 then [([], cs)] else []
  | min, _ + 1, [] => if min = 0 then [([], [])] else []
  | min, max + 1, x :: xs =>
    (if p x then (repGreedy p (min - 1) max xs).map (fun r => (x :: r.1, r.2)) else []) ++
    (if min = 0 then [([], x :: xs)] else [])

/-- Greedy repetition `[p]*`: all ways to match, the longest first. -/
def starGreedy (p : Char → Bool) : List Char → List (List Char × List Char)
  | [] => [([], [])]
  | x :: xs =>
    (if p x then (starGreedy p xs).map (fun r => (x :: r.1, r.2)) else []) ++ [([], x :: xs)]

/-- All matches of `r` that start at the current position, in the priority
order of a backtracking (leftmost-first) matcher, each as
(consumed text, remaining text). `prev` is the character before the current
position. -/
def matchAll : Re → Option Char → List Char → List (List Char × List Char)
  | .lit c, _, cs =>
    match cs with
    | [] => []
    | x :: xs => if x = c then [([x], xs)] else []
  | .seq a b, prev, cs =>
    (matchAll a prev cs).flatMap (fun r1 =>
      (matchAll b (lastChar prev r1.1) r1.2).map (fun r2 => (r1.1 ++ r2.1, r2.2)))
  | .opt a, prev, cs => matchAll a prev cs ++ [([], cs)]
  | .rep p min max, _, cs => repGreedy p min max cs
  | .star p, _, cs => starGreedy p cs
  | .wordb, prev, cs => if isWordAt prev != isWordAt cs.head? then [([], cs)] else []

/-- Sequence of several expressions. -/
def seqs : List Re → Re
  | [] => .star (fun _ => false)
  | [r] => r
  | r :: rs => .seq r (seqs rs)

/-- The pattern
`https?:\/\/(www\.)?[-a-zA-Z0-9@:%._\+~#=]{1,256}\.[a-zA-Z0-9]{1,6}\b([-a-zA-Z0-9!@:%_\+.~#?&\/\/=]*)`. -/
def urlRE : Re :=
  seqs [.lit 'h', .lit 't', .lit 't', .lit 'p', .opt (.lit 's'), .lit ':', .lit '/', .lit '/',
        .opt (seqs [.lit 'w', .lit 'w', .lit 'w', .lit '.']),
        .rep hostClass 1 256, .lit '.', .rep alnumClass 1 6, .wordb, .star tailClass]

/-- The match the regexp engine reports at the current position: the first one
in priority order. -/
def matchAt (r : Re) (prev : Option Char) (cs : List Char) : Option (List Char) :=
  ((matchAll r prev cs).head?).map Prod.fst

/-- The loop of `FindAll`: `skip` is the number of characters still inside the
previous match, `adj` tells that the current position is the end of the
previous match (an empty match there is ignored). -/
def findAllAux (r : Re) : Option Char → List Char → Nat → Bool → List (List Char)
  | prev, [], _, adj =>
    match matchAt r prev [] with
    | some m => if adj then [] else [m]
    | none => []
  | _, x :: xs, skip + 1, adj => findAllAux r (some x) xs skip adj
  | prev, x :: xs, 0, adj =>
    match matchAt r prev (x :: xs) with
    | some [] => (if adj then [] else [[]]) ++ findAllAux r (some x) xs 0 false
    | some (c :: m) => (c :: m) :: findAllAux r (some x) xs m.length true
    | none => findAllAux r (some x) xs 0 false

/-- Leftmost-first, non-overlapping successive matches:
`re.FindAllString(s, -1)`. -/
def FindAllString (r : Re) (s : String) : List String :=
  (findAllAux r none s.data 0 false).map String.mk

/-- The expression `r` matches the whole of `u`: some way of matching `r` at
the start of `u` consumes all of it. -/
def Matches (r : Re) (u : String) : Prop :=
  (u.data, []) ∈ matchAll r none u.data

instance (r : Re) (u : String) : Decidable (Matches r u) := by
  unfold Matches; infer_instance

/-- A delimiter: a character outside the path class of `urlRE`, hence outside
each of its classes and different from each of its literals. -/
def isDelim (c : Char) : Bool := !tailClass c

/-- The text is empty or starts with a delimiter. -/
def startsDelim (g : String) : Bool :=
  match g.data with
  | [] => true
  | c :: _ => isDelim c

/-- No match of `r` starts at a position inside the gap `g`, when `g` is
followed by the text `tl`. -/
def noMatchStarts (r : Re) : List Char → List Char → Bool
  | [], _ => true
  | c :: g, tl => (matchAt r none (c :: (g ++ tl))).isNone && noMatchStarts r g tl

/-- The document `g₀ u₁ g₁ u₂ g₂ … u_N g_N` for the gap `g₀` and the segments
`(uᵢ, gᵢ)`: the `uᵢ` are pairwise non-overlapping substrings of it, in order. -/
def assemble : String → List (String × String) → String
  | g, [] => g
  | g, s :: segs => g ++ s.1 ++ assemble s.2 segs

/-- In the document `assemble g segs` no match of `r` starts at a position
inside one of the gaps. -/
def noMatchInGaps (r : Re) : String → List (String × String) → Bool
  | g, [] => noMatchStarts r g.data []
  | g, s :: segs =>
    noMatchStarts r g.data (s.1.data ++ (assemble s.2 segs).data) && noMatchInGaps r s.2 segs

/-- Every gap that is followed by another segment is non-empty. -/
def gapsNonEmpty : List (String × String) → Bool
  | [] => true
  | [_] => true
  | s :: t :: segs => s.2 != "" && gapsNonEmpty (t :: segs)

/-- No literal and no class of `r` accepts the character `c`. -/
def Re.avoids (c : Char) : Re → Bool
  | .lit d => d != c
  | .seq a b => Re.avoids c a && Re.avoids c b
  | .opt a => Re.avoids c a
  | .rep p _ _ => !p c
  | .star p => !p c
  | .wordb => true

/-- Every literal and every class of `r` lies inside the class `q`. -/
def Re.within (q : Char → Bool) : Re → Prop
  | .lit d => q d = true
  | .seq a b => Re.within q a ∧ Re.within q b
  | .opt a => Re.within q a
  | .rep p _ _ => ∀ c, p c = true → q c = true
  | .star p => ∀ c, p c = true → q c = true
  | .wordb => True

/-! ## Data model -/

/-- Go `error` values returned by the probe: the sentinel `tcp.ErrTimeout` or
any other error. -/
inductive GoError where
  | ErrTimeout
  | other (msg : String)
  deriving DecidableEq

/-- The struct `response`; the zero value of `Response` is `0` and of `Err` is
`nil`. -/
structure response where
  URL : String
  Response : Int := 0
  Err : Option GoError := none
  deriving DecidableEq

def errorColor : String := "\x1b[1;31m%d\x1b[0m"
def errorStrColor : String := "\x1b[1;31m%s\x1b[0m"
def okColor : String := "\x1b[1;32m%d\x1b[0m"
def debugColor : String := "\x1b[1;36m%d\x1b[0m"

/-- One line printed by the aggregator loop: either the `ERROR` line (format
`errorStrColor`, followed by the text of the non-nil `resp.Err`) or the status
line (the status printed with format `statusColor`, then the URL). -/
inductive Line where
  | errorLine (err : Option GoError)
  | statusLine (statusColor : String) (status : Int) (url : String)
  deriving DecidableEq

/-- A `time.Duration`, in nanoseconds. -/
abbrev Duration := Int

def Second : Duration := 1000000000

/-! ## `isIn`, `isInStr` -/

def isIn (item : Int) : List Int → Bool
  | [] => false
  | i :: items => if i = item then true else isIn item items

def isInStr (item : String) : List String → Bool
  | [] => false
  | i :: items => if i = item then true else isInStr item items

/-! ## `worker2` -/

/-- Lines 130-136 of `worker2`: the address handed to `c.CheckAddr`. Indexing
`runes[len(runes)-1]` panics on the empty string. -/
def worker2Addr (url : String) : Option String :=
  let runes := url.data
  match runes.getLast? with
  | none => none
  | some c =>
    let url := if c = '/' then String.mk (runes.take (runes.length - 1)) else url
    some (url ++ ":80")

/-- The function `worker2`: the outcome it sends on `results`. -/
def worker2 (url : String) (CheckAddr : String → Duration → Option GoError) :
    Option response :=
  let response : response := { URL := url }
  match worker2Addr url with
  | none => none
  | some addr =>
    let timeout := Second * 1
    let err := CheckAddr addr timeout
    match err with
    | some .ErrTimeout => some { response with Err := err }
    | none => some { response with Response := 200 }
    | some _ => some { response with Err := err }

/-! ## `main`: producer and aggregator -/

/-- The producer loop (lines 85-94): the state is the outstanding counter and
the addresses for which `go worker2(u, results, c)` was executed, in order. -/
def producer (whitelisted : List String) : List String → Nat × List String → Nat × List String
  | [], st => st
  | url :: rest, (counter, launched) =>
    let u := url
    if isInStr url whitelisted then producer whitelisted rest (counter, launched)
    else producer whitelisted rest (counter + 1, launched ++ [u])

/-- State of the aggregator loop. -/
structure AggState where
  counter : Nat
  totalErrors : Nat
  out : List Line
  deriving DecidableEq

/-- The body of the aggregator loop (lines 99-116) for the received `resp`. -/
def aggBody (skipped : List Int) (st : AggState) (resp : response) : AggState :=
  let counter := st.counter - 1
  if resp.Err ≠ none ∧ resp.Response ≠ 200 then
    { counter := counter, totalErrors := st.totalErrors + 1,
      out := st.out ++ [.errorLine resp.Err] }
  else
    let shouldSkipURL := decide (skipped.length > 0) && isIn resp.Response skipped
    let statusColor := okColor
    if resp.Err ≠ none ∧ !shouldSkipURL then
      let statusColor := errorColor
      { counter := counter, totalErrors := st.totalErrors + 1,
        out := st.out ++ [.statusLine statusColor resp.Response resp.URL] }
    else if shouldSkipURL then
      let statusColor := debugColor
      { counter := counter, totalErrors := st.totalErrors,
        out := st.out ++ [.statusLine statusColor resp.Response resp.URL] }
    else
      { counter := counter, totalErrors := st.totalErrors,
        out := st.out ++ [.statusLine statusColor resp.Response resp.URL] }

/-- The aggregator loop `for counter > 0` (lines 98-117) over the outcomes that
arrive on `results`, in arrival order. Returns the final state and the
outcomes never received; `none` when it blocks on `<-results` forever. -/
def aggregator (skipped : List Int) : AggState → List response → Option (AggState × List response)
  | st, [] => if st.counter > 0 then none else some (st, [])
  | st, resp :: rest =>
    if st.counter > 0 then aggregator skipped (aggBody skipped st resp) rest
    else some (st, resp :: rest)

/-- Lines 119-122: the process exit status. -/
def exitCode (totalErrors : Nat) : Nat :=
  if totalErrors > 0 then 1 else 0

/-- The outcomes sent by the launched workers, in launch order; `none` when a
worker panics. -/
def runWorkers (CheckAddr : String → Duration → Option GoError) : List String → Option (List response)
  | [] => some []
  | u :: us =>
    match worker2 u CheckAddr with
    | none => none
    | some r =>
      match runWorkers CheckAddr us with
      | none => none
      | some rs => some (r :: rs)

/-- What a run of `main` produces. -/
structure Run where
  found : Nat
  counter : Nat
  totalErrors : Nat
  out : List Line
  exit : Nat
  deriving DecidableEq

/-- The function `main` from line 71 on, for the file content, the parsed
skip-list and whitelist, the probe, and the order `arrival` in which the
outcomes of the launched workers reach the aggregator. -/
def mainWith (file : String) (skipped : List Int) (whitelisted : List String)
    (CheckAddr : String → Duration → Option GoError)
    (arrival : List response → List response) : Option Run :=
  let matched := FindAllString urlRE file
  let (counter, launched) := producer whitelisted matched (0, [])
  match runWorkers CheckAddr launched with
  | none => none
  | some outcomes =>
    match aggregator skipped { counter := counter, totalErrors := 0, out := [] } (arrival outcomes) with
    | none => none
    | some (st, _) =>
      some { found := matched.length, counter := counter, totalErrors := st.totalErrors,
             out := st.out, exit := exitCode st.totalErrors }

/-! ## Scenario of the specification -/

/-- The input text of the scenario. -/
def scenarioText : String := "see http://good.example.com/ and http://bad.example.com/x"

/-- The probe of the scenario: `good.example.com` accepts the connection,
every other address, `bad.example.com` among them, times out. -/
def scenarioCheckAddr : String → Duration → Option GoError :=
  fun addr _ => if addr = "http://good.example.com:80" then none else some .ErrTimeout


/-! ## Auxiliary lemmas -/

theorem isIn_iff_mem (item : Int) (items : List Int) : isIn item items = true ↔ item ∈ items := by
  induction items with
  | nil => simp [isIn]
  | cons i items ih =>
    by_cases h : i = item
    · simp [isIn, h]
    · have h2 : ¬ item = i := fun e => h e.symm
      simp [isIn, h, h2, ih]

theorem isInStr_iff_mem (item : String) (items : List String) :
    isInStr item items = true ↔ item ∈ items := by
  induction items with
  | nil => simp [isInStr]
  | cons i items ih =>
    by_cases h : i = item
    · simp [isInStr, h]
    · have h2 : ¬ item = i := fun e => h e.symm
      simp [isInStr, h, h2, ih]

/-- The test `len(skipped) > 0 && isIn(status, skipped)` is membership in the
skip-list. -/
theorem shouldSkip_iff_mem (status : Int) (skipped : List Int) :
    (decide (skipped.length > 0) && isIn status skipped) = true ↔ status ∈ skipped := by
  rw [Bool.and_eq_true, isIn_iff_mem]
  constructor
  · exact fun h => h.2
  · intro h
    refine ⟨?_, h⟩
    cases skipped with
    | nil => simp at h
    | cons a l => simp

/-! ## Aggregator classification -/

/-- C1 (as stated, refuted): a timeout outcome (status 0, error set) with the
skip-list `[0]` has a non-nil error and its status is in the skip-list, yet the
aggregator prints the plain `ERROR` line and raises the total error count. -/
theorem C1_counterexample :
    (⟨"http://bad.example.com/x", 0, some .ErrTimeout⟩ : response).Err ≠ none ∧
    (⟨"http://bad.example.com/x", 0, some .ErrTimeout⟩ : response).Response ∈ [(0 : Int)] ∧
    (aggBody [0] ⟨1, 0, []⟩ ⟨"http://bad.example.com/x", 0, some .ErrTimeout⟩).totalErrors = 1 ∧
    (aggBody [0] ⟨1, 0, []⟩ ⟨"http://bad.example.com/x", 0, some .ErrTimeout⟩).out =
      [.errorLine (some .ErrTimeout)] ∧
    (aggBody [0] ⟨1, 0, []⟩ ⟨"http://bad.example.com/x", 0, some .ErrTimeout⟩).out ≠
      [.statusLine debugColor 0 "http://bad.example.com/x"] := by
  decide

/-- C1 (amended): for an outcome with a non-nil error whose status is in the
skip-list, the aggregator suppresses it (debug colour, total error count
unchanged) when the status is 200; when the status is not 200 the outcome is
handled by the first test of the loop: plain `ERROR` line, total error count
plus one. -/
theorem C1_skip_suppresses_only_status_200 (skipped : List Int) (st : AggState) (resp : response)
    (herr : resp.Err ≠ none) (hskip : resp.Response ∈ skipped) :
    (resp.Response = 200 →
      (aggBody skipped st resp).totalErrors = st.totalErrors ∧
      (aggBody skipped st resp).out = st.out ++ [.statusLine debugColor resp.Response resp.URL]) ∧
    (resp.Response ≠ 200 →
      (aggBody skipped st resp).totalErrors = st.totalErrors + 1 ∧
      (aggBody skipped st resp).out = st.out ++ [.errorLine resp.Err]) := by
  have hs := (shouldSkip_iff_mem resp.Response skipped).2 hskip
  constructor
  · intro h200
    simp only [aggBody, herr, h200, ne_eq, not_true_eq_false, not_false_eq_true, and_false,
      and_true, if_false, if_true]
    rw [h200] at hs
    simp [hs]
  · intro h200
    simp [aggBody, herr, h200]

theorem C1_skip_suppresses_only_status_200_witness :
    ((200 : Int) = 200 →
      (aggBody [200] ⟨1, 0, []⟩ ⟨"http://a.b", 200, some (.other "x")⟩).totalErrors = 0 ∧
      (aggBody [200] ⟨1, 0, []⟩ ⟨"http://a.b", 200, some (.other "x")⟩).out =
        [] ++ [.statusLine debugColor 200 "http://a.b"]) ∧
    ((200 : Int) ≠ 200 →
      (aggBody [200] ⟨1, 0, []⟩ ⟨"http://a.b", 200, some (.other "x")⟩).totalErrors = 0 + 1 ∧
      (aggBody [200] ⟨1, 0, []⟩ ⟨"http://a.b", 200, some (.other "x")⟩).out =
        [] ++ [.errorLine (some (.other "x"))]) :=
  C1_skip_suppresses_only_status_200 [200] ⟨1, 0, []⟩ ⟨"http://a.b", 200, some (.other "x")⟩
    (by decide) (by decide)

/-- C2: whatever the skip-list (also one that contains 0), an outcome with
status 0 and a non-nil error is printed as the plain `ERROR` line and raises the
total error count by exactly one. -/
theorem C2_status_zero_error_never_skipped (skipped : List Int) (st : AggState) (resp : response)
    (hstatus : resp.Response = 0) (herr : resp.Err ≠ none) :
    (aggBody skipped st resp).totalErrors = st.totalErrors + 1 ∧
    (aggBody skipped st resp).out = st.out ++ [.errorLine resp.Err] ∧
    (aggBody skipped st resp).counter = st.counter - 1 := by
  simp [aggBody, herr, hstatus]

theorem C2_status_zero_error_never_skipped_witness :
    (aggBody [0] ⟨1, 0, []⟩ ⟨"http://bad.example.com/x", 0, some .ErrTimeout⟩).totalErrors = 0 + 1 ∧
    (aggBody [0] ⟨1, 0, []⟩ ⟨"http://bad.example.com/x", 0, some .ErrTimeout⟩).out =
      [] ++ [.errorLine (some .ErrTimeout)] ∧
    (aggBody [0] ⟨1, 0, []⟩ ⟨"http://bad.example.com/x", 0, some .ErrTimeout⟩).counter = 1 - 1 :=
  C2_status_zero_error_never_skipped [0] ⟨1, 0, []⟩ ⟨"http://bad.example.com/x", 0, some .ErrTimeout⟩
    (by decide) (by decide)

/-- C3 (as stated, refuted): with the skip-list `[200]` a successful outcome
(no error, status 200) is printed with `debugColor`, not with `okColor`. -/
theorem C3_counterexample :
    (⟨"http://good.example.com/", 200, none⟩ : response).Err = none ∧
    (⟨"http://good.example.com/", 200, none⟩ : response).Response = 200 ∧
    (aggBody [200] ⟨1, 0, []⟩ ⟨"http://good.example.com/", 200, none⟩).out =
      [.statusLine debugColor 200 "http://good.example.com/"] ∧
    (aggBody [200] ⟨1, 0, []⟩ ⟨"http://good.example.com/", 200, none⟩).out ≠
      [.statusLine okColor 200 "http://good.example.com/"] := by
  decide

/-- C3 (amended): an outcome with no error and status 200 never raises the
total error count; it is printed with `okColor` when 200 is not in the
skip-list and with `debugColor` when 200 is in the skip-list. -/
theorem C3_success_ok_unless_200_skipped (skipped : List Int) (st : AggState) (resp : response)
    (herr : resp.Err = none) (hstatus : resp.Response = 200) :
    (aggBody skipped st resp).totalErrors = st.totalErrors ∧
    ((200 : Int) ∉ skipped →
      (aggBody skipped st resp).out = st.out ++ [.statusLine okColor 200 resp.URL]) ∧
    ((200 : Int) ∈ skipped →
      (aggBody skipped st resp).out = st.out ++ [.statusLine debugColor 200 resp.URL]) := by
  have hs := shouldSkip_iff_mem 200 skipped
  by_cases hmem : (200 : Int) ∈ skipped
  · have h1 := hs.2 hmem
    simp only [aggBody, herr, hstatus, ne_eq, not_true_eq_false, false_and, if_false, h1, if_true]
    simp [hmem]
  · have h1 : (decide (skipped.length > 0) && isIn 200 skipped) = false := by
      rw [← Bool.not_eq_true]; exact fun h => hmem (hs.1 h)
    simp only [aggBody, herr, hstatus, ne_eq, not_true_eq_false, false_and, if_false, h1]
    simp [hmem]

theorem C3_success_ok_unless_200_skipped_witness :
    (aggBody [500] ⟨1, 0, []⟩ ⟨"http://a.b", 200, none⟩).totalErrors = 0 ∧
    ((200 : Int) ∉ [(500 : Int)] →
      (aggBody [500] ⟨1, 0, []⟩ ⟨"http://a.b", 200, none⟩).out =
        [] ++ [.statusLine okColor 200 "http://a.b"]) ∧
    ((200 : Int) ∈ [(500 : Int)] →
      (aggBody [500] ⟨1, 0, []⟩ ⟨"http://a.b", 200, none⟩).out =
        [] ++ [.statusLine debugColor 200 "http://a.b"]) :=
  C3_success_ok_unless_200_skipped [500] ⟨1, 0, []⟩ ⟨"http://a.b", 200, none⟩ rfl rfl

/-- C8: an outcome with a non-nil error whose status is not in the skip-list
(the empty skip-list included) raises the total error count by exactly one,
in the `ERROR` branch when the status is not 200 and in the `errorColor`
branch when it is 200. -/
theorem C8_unskipped_error_counts_once (skipped : List Int) (st : AggState) (resp : response)
    (herr : resp.Err ≠ none) (hskip : resp.Response ∉ skipped) :
    (aggBody skipped st resp).totalErrors = st.totalErrors + 1 ∧
    (aggBody skipped st resp).out = st.out ++
      [if resp.Response ≠ 200 then .errorLine resp.Err
       else .statusLine errorColor resp.Response resp.URL] := by
  have h1 : (decide (skipped.length > 0) && isIn resp.Response skipped) = false := by
    rw [← Bool.not_eq_true]; exact fun h => hskip ((shouldSkip_iff_mem _ _).1 h)
  by_cases h200 : resp.Response = 200
  · simp only [aggBody, herr, h200, ne_eq, not_true_eq_false, not_false_eq_true, and_false,
      if_false]
    rw [h200] at h1
    simp [h1]
  · simp [aggBody, herr, h200]

theorem C8_unskipped_error_counts_once_witness :
    (aggBody [] ⟨1, 0, []⟩ ⟨"http://a.b", 0, some (.other "refused")⟩).totalErrors = 0 + 1 ∧
    (aggBody [] ⟨1, 0, []⟩ ⟨"http://a.b", 0, some (.other "refused")⟩).out = [] ++
      [if (0 : Int) ≠ 200 then .errorLine (some (.other "refused"))
       else .statusLine errorColor 0 "http://a.b"] :=
  C8_unskipped_error_counts_once [] ⟨1, 0, []⟩ ⟨"http://a.b", 0, some (.other "refused")⟩
    (by decide) (by decide)


/-! ## `worker2` -/

theorem worker2Addr_isSome (url : String) (h : url ≠ "") : ∃ addr, worker2Addr url = some addr := by
  cases hl : url.data.getLast? with
  | none =>
    exfalso
    apply h
    have : url.data = [] := List.getLast?_eq_none_iff.1 hl
    exact String.ext this
  | some c =>
    refine ⟨(if c = '/' then String.mk (url.data.take (url.data.length - 1)) else url) ++ ":80", ?_⟩
    simp only [worker2Addr, hl]

/-- The outcome `worker2` builds once the probe has returned `err`. -/
theorem worker2_eq (url addr : String) (CheckAddr : String → Duration → Option GoError)
    (h : worker2Addr url = some addr) :
    worker2 url CheckAddr =
      some { URL := url, Response := if CheckAddr addr (Second * 1) = none then 200 else 0,
             Err := CheckAddr addr (Second * 1) } := by
  simp only [worker2, h]
  generalize CheckAddr addr (Second * 1) = e
  rcases e with _ | _ | _ <;> rfl

/-- C4: whenever `worker2` builds an outcome (it does for every non-empty
address), the error of the outcome is the error returned by the probe, the
status is 200 if and only if that error is nil, and the status is 0 otherwise. -/
theorem C4_worker2_status_200_iff_no_error (url : String)
    (CheckAddr : String → Duration → Option GoError) :
    (url ≠ "" → ∃ r, worker2 url CheckAddr = some r) ∧
    ∀ r, worker2 url CheckAddr = some r →
      (r.Response = 200 ↔ r.Err = none) ∧
      (r.Err ≠ none → r.Response = 0) ∧
      ∃ addr, worker2Addr url = some addr ∧ r.Err = CheckAddr addr (Second * 1) := by
  constructor
  · intro h
    obtain ⟨addr, ha⟩ := worker2Addr_isSome url h
    exact ⟨_, worker2_eq url addr CheckAddr ha⟩
  · intro r hr
    cases ha : worker2Addr url with
    | none => simp [worker2, ha] at hr
    | some addr =>
      rw [worker2_eq url addr CheckAddr ha] at hr
      injection hr with hr
      subst hr
      refine ⟨?_, ?_, addr, rfl, rfl⟩
      · generalize CheckAddr addr (Second * 1) = e
        cases e <;> simp
      · generalize CheckAddr addr (Second * 1) = e
        cases e <;> simp

theorem append_slash_getLast (v : String) : (v ++ "/").data.getLast? = some '/' := by
  have : (v ++ "/").data = v.data ++ ['/'] := by rw [String.data_append]
  rw [this, List.getLast?_append]
  rfl

theorem append_slash_dropLast (v : String) :
    String.mk ((v ++ "/").data.take ((v ++ "/").data.length - 1)) = v := by
  have : (v ++ "/").data = v.data ++ ['/'] := by rw [String.data_append]
  simp [this]

theorem C4_worker2_status_200_iff_no_error_witness :
    "http://good.example.com/" ≠ "" ∧
    ∃ r, worker2 "http://good.example.com/" scenarioCheckAddr = some r :=
  ⟨by decide,
   (C4_worker2_status_200_iff_no_error "http://good.example.com/" scenarioCheckAddr).1
     (by decide)⟩

/-- C9: for a non-empty address `u`, `worker2` probes `t ++ ":80"` where `t` is
`u` without its last character when that character is `/` (so `v ++ "/"` gives
`v`, whatever `v` ends in) and `t = u` otherwise; the outcome records the
unstripped `u`. -/
theorem C9_worker2_strips_one_trailing_slash (u : String) (hne : u ≠ "") :
    (∀ v : String, u = v ++ "/" → worker2Addr u = some (v ++ ":80")) ∧
    (u.data.getLast? ≠ some '/' → worker2Addr u = some (u ++ ":80")) ∧
    ∀ CheckAddr : String → Duration → Option GoError,
      ∃ r addr, worker2Addr u = some addr ∧ worker2 u CheckAddr = some r ∧
        r.URL = u ∧ r.Err = CheckAddr addr (Second * 1) := by
  refine ⟨?_, ?_, ?_⟩
  · intro v hv
    subst hv
    unfold worker2Addr
    simp only [append_slash_getLast, if_true, append_slash_dropLast]
  · intro hl
    obtain ⟨addr, ha⟩ := worker2Addr_isSome u hne
    cases hc : u.data.getLast? with
    | none => simp [worker2Addr, hc] at ha
    | some c =>
      have : c ≠ '/' := fun e => hl (by rw [hc, e])
      simp only [worker2Addr, hc, this, if_false]
  · intro CheckAddr
    obtain ⟨addr, ha⟩ := worker2Addr_isSome u hne
    exact ⟨_, addr, ha, worker2_eq u addr CheckAddr ha, rfl, rfl⟩


theorem C9_worker2_strips_one_trailing_slash_witness :
    "http://a.b//" ≠ "" ∧ worker2Addr "http://a.b//" = some ("http://a.b/" ++ ":80") :=
  ⟨by decide,
   (C9_worker2_strips_one_trailing_slash "http://a.b//" (by decide)).1 "http://a.b/"
     (by decide)⟩

/-! ## Producer -/

theorem producer_eq (whitelisted : List String) (candidates : List String) (counter : Nat)
    (launched : List String) :
    producer whitelisted candidates (counter, launched) =
      (counter + (candidates.filter (fun u => !isInStr u whitelisted)).length,
       launched ++ candidates.filter (fun u => !isInStr u whitelisted)) := by
  induction candidates generalizing counter launched with
  | nil => simp [producer]
  | cons url rest ih =>
    by_cases h : isInStr url whitelisted = true
    · simp [producer, h, ih]
    · simp only [Bool.not_eq_true] at h
      simp [producer, h, ih]
      omega

theorem runWorkers_urls (CheckAddr : String → Duration → Option GoError) (launched : List String)
    (outcomes : List response) (h : runWorkers CheckAddr launched = some outcomes) :
    outcomes.map (fun r => r.URL) = launched := by
  induction launched generalizing outcomes with
  | nil =>
    simp [runWorkers] at h
    simp [h]
  | cons u us ih =>
    unfold runWorkers at h
    cases hw : worker2 u CheckAddr with
    | none => simp [hw] at h
    | some r =>
      cases hr : runWorkers CheckAddr us with
      | none => simp [hw, hr] at h
      | some rs =>
        simp [hw, hr] at h
        subst h
        have hu : r.URL = u := by
          cases ha : worker2Addr u with
          | none => simp [worker2, ha] at hw
          | some addr =>
            rw [worker2_eq u addr CheckAddr ha] at hw
            injection hw with hw
            rw [← hw]
        simp [hu, ih rs hr]

/-- C6: the producer loop launches a worker for exactly the candidates that
are not elements of the whitelist (`isInStr` is exact string equality), in
order and with duplicates; the outstanding counter is their number; and the
outcomes of a run carry exactly the launched addresses, none of them
whitelisted. -/
theorem C6_producer_launches_non_whitelisted (candidates whitelisted : List String) :
    (∀ u, isInStr u whitelisted = true ↔ u ∈ whitelisted) ∧
    (producer whitelisted candidates (0, [])).2 =
      candidates.filter (fun u => decide (u ∉ whitelisted)) ∧
    (producer whitelisted candidates (0, [])).1 =
      (candidates.filter (fun u => decide (u ∉ whitelisted))).length ∧
    ∀ (CheckAddr : String → Duration → Option GoError) (outcomes : List response),
      runWorkers CheckAddr (producer whitelisted candidates (0, [])).2 = some outcomes →
      outcomes.map (fun r => r.URL) = candidates.filter (fun u => decide (u ∉ whitelisted)) ∧
      ∀ r ∈ outcomes, r.URL ∉ whitelisted := by
  have hf : (fun u => !isInStr u whitelisted) = (fun u => decide (u ∉ whitelisted)) := by
    funext u
    by_cases h : u ∈ whitelisted
    · simp [h, (isInStr_iff_mem u whitelisted).2 h]
    · have : isInStr u whitelisted = false := by
        rw [← Bool.not_eq_true]; exact fun e => h ((isInStr_iff_mem u whitelisted).1 e)
      simp [h, this]
  have hp := producer_eq whitelisted candidates 0 []
  rw [hf] at hp
  refine ⟨fun u => isInStr_iff_mem u whitelisted, ?_, ?_, ?_⟩
  · rw [hp]; simp
  · rw [hp]; simp
  · intro CheckAddr outcomes hrun
    have hu := runWorkers_urls CheckAddr _ outcomes hrun
    rw [hp] at hu
    simp only [List.nil_append] at hu
    refine ⟨hu, ?_⟩
    intro r hr
    have : r.URL ∈ outcomes.map (fun r => r.URL) := List.mem_map_of_mem _ hr
    rw [hu, List.mem_filter] at this
    simpa using this.2

theorem C6_producer_launches_non_whitelisted_witness :
    (producer ["HTTP://A.B", "http://c.d"] ["http://a.b", "http://c.d", "http://a.b"] (0, [])).2 =
      ["http://a.b", "http://c.d", "http://a.b"].filter
        (fun u => decide (u ∉ ["HTTP://A.B", "http://c.d"])) ∧
    (producer ["HTTP://A.B", "http://c.d"] ["http://a.b", "http://c.d", "http://a.b"] (0, [])).1 =
      (["http://a.b", "http://c.d", "http://a.b"].filter
        (fun u => decide (u ∉ ["HTTP://A.B", "http://c.d"]))).length :=
  ⟨(C6_producer_launches_non_whitelisted ["http://a.b", "http://c.d", "http://a.b"]
      ["HTTP://A.B", "http://c.d"]).2.1,
   (C6_producer_launches_non_whitelisted ["http://a.b", "http://c.d", "http://a.b"]
      ["HTTP://A.B", "http://c.d"]).2.2.1⟩

/-! ## Aggregator loop -/

/-- The loop body adds to the state what it adds to the empty state. -/
theorem aggBody_eq (skipped : List Int) (st : AggState) (resp : response) :
    aggBody skipped st resp =
      { counter := st.counter - 1,
        totalErrors := st.totalErrors + (aggBody skipped ⟨0, 0, []⟩ resp).totalErrors,
        out := st.out ++ (aggBody skipped ⟨0, 0, []⟩ resp).out } := by
  unfold aggBody
  simp only []
  split_ifs <;> simp

theorem aggregator_eq (skipped : List Int) (outcomes : List response) (st : AggState)
    (h : st.counter = outcomes.length) :
    aggregator skipped st outcomes =
      some ({ counter := 0,
              totalErrors := st.totalErrors +
                (outcomes.map (fun r => (aggBody skipped ⟨0, 0, []⟩ r).totalErrors)).sum,
              out := st.out ++ outcomes.flatMap (fun r => (aggBody skipped ⟨0, 0, []⟩ r).out) },
            []) := by
  induction outcomes generalizing st with
  | nil =>
    obtain ⟨c, t, o⟩ := st
    simp at h
    simp [aggregator, h]
  | cons r rs ih =>
    have hpos : st.counter > 0 := by rw [h]; simp
    have hc : (aggBody skipped st r).counter = rs.length := by
      rw [aggBody_eq]; simp [h]
    rw [aggregator, if_pos hpos, ih _ hc]
    conv_lhs => rw [aggBody_eq]
    simp [Nat.add_assoc]

theorem exitCode_ne_zero_iff (n : Nat) : exitCode n ≠ 0 ↔ n > 0 := by
  unfold exitCode
  split_ifs with h <;> simp [h]

/-- C10: when the number of outcomes equals the outstanding counter, the
aggregator loop ends (it never blocks) with the counter at zero and no outcome
left, having printed the line of each outcome once in arrival order; the final
total error count and the exit status are the same for every permutation of
the arrival order, and the exit status is non-zero exactly when the count is
positive. -/
theorem C10_aggregator_terminates_order_independent (skipped : List Int) (counter : Nat)
    (outcomes arrival : List response) (hlen : outcomes.length = counter)
    (hperm : arrival.Perm outcomes) :
    ∃ st st', aggregator skipped ⟨counter, 0, []⟩ outcomes = some (st, []) ∧
      aggregator skipped ⟨counter, 0, []⟩ arrival = some (st', []) ∧
      st.counter = 0 ∧ st'.counter = 0 ∧
      st.out = outcomes.flatMap (fun r => (aggBody skipped ⟨0, 0, []⟩ r).out) ∧
      st'.out = arrival.flatMap (fun r => (aggBody skipped ⟨0, 0, []⟩ r).out) ∧
      st.out.length = counter ∧ st'.out.length = counter ∧
      st'.totalErrors = st.totalErrors ∧
      exitCode st'.totalErrors = exitCode st.totalErrors ∧
      (exitCode st.totalErrors ≠ 0 ↔ st.totalErrors > 0) := by
  have hlen' : arrival.length = counter := by rw [hperm.length_eq, hlen]
  have hone : ∀ l : List response,
      (l.flatMap (fun r => (aggBody skipped ⟨0, 0, []⟩ r).out)).length = l.length := by
    intro l
    induction l with
    | nil => rfl
    | cons r rs ih =>
      have h1 : (aggBody skipped ⟨0, 0, []⟩ r).out.length = 1 := by
        unfold aggBody
        simp only []
        split_ifs <;> rfl
      simp only [List.flatMap_cons, List.length_append, ih, h1, List.length_cons]
      omega
  have hsum : (arrival.map (fun r => (aggBody skipped ⟨0, 0, []⟩ r).totalErrors)).sum =
      (outcomes.map (fun r => (aggBody skipped ⟨0, 0, []⟩ r).totalErrors)).sum :=
    (hperm.map _).sum_eq
  refine ⟨_, _, aggregator_eq skipped outcomes ⟨counter, 0, []⟩ hlen.symm,
    aggregator_eq skipped arrival ⟨counter, 0, []⟩ hlen'.symm, rfl, rfl, ?_, ?_, ?_, ?_, ?_, ?_, ?_⟩
  · simp
  · simp
  · simp only [List.nil_append, hone, hlen]
  · simp only [List.nil_append, hone, hlen']
  · simp only [hsum]
  · simp only [hsum]
  · exact exitCode_ne_zero_iff _

theorem C10_aggregator_terminates_order_independent_witness :
    ([⟨"http://a.b", 200, none⟩, ⟨"http://c.d", 0, some .ErrTimeout⟩] : List response).length = 2 ∧
    ([⟨"http://c.d", 0, some .ErrTimeout⟩, ⟨"http://a.b", 200, none⟩] : List response).Perm
      [⟨"http://a.b", 200, none⟩, ⟨"http://c.d", 0, some .ErrTimeout⟩] ∧
    ∃ st st', aggregator [] ⟨2, 0, []⟩ [⟨"http://a.b", 200, none⟩, ⟨"http://c.d", 0, some .ErrTimeout⟩]
        = some (st, []) ∧
      aggregator [] ⟨2, 0, []⟩ [⟨"http://c.d", 0, some .ErrTimeout⟩, ⟨"http://a.b", 200, none⟩]
        = some (st', []) ∧
      st.counter = 0 ∧ st'.counter = 0 ∧
      st.out = ([⟨"http://a.b", 200, none⟩, ⟨"http://c.d", 0, some .ErrTimeout⟩] : List response).flatMap
        (fun r => (aggBody [] ⟨0, 0, []⟩ r).out) ∧
      st'.out = ([⟨"http://c.d", 0, some .ErrTimeout⟩, ⟨"http://a.b", 200, none⟩] : List response).flatMap
        (fun r => (aggBody [] ⟨0, 0, []⟩ r).out) ∧
      st.out.length = 2 ∧ st'.out.length = 2 ∧
      st'.totalErrors = st.totalErrors ∧
      exitCode st'.totalErrors = exitCode st.totalErrors ∧
      (exitCode st.totalErrors ≠ 0 ↔ st.totalErrors > 0) :=
  ⟨rfl, List.Perm.swap _ _ _,
   C10_aggregator_terminates_order_independent [] 2 _ _ rfl (List.Perm.swap _ _ _)⟩

/-! ## The whitelist scenario -/

/-- C5 (the code at the scenario): with the whitelist entry `bad.example.com`
both candidates are extracted and both are probed (the entry is compared with
the whole candidate `http://bad.example.com/x`), so the outstanding counter is
2, the total error count is 1 and the exit status is 1, in either arrival
order; only the entry `http://bad.example.com/x` excludes the candidate. -/
theorem C5_hostname_whitelist_entry_excludes_nothing :
    FindAllString urlRE scenarioText = ["http://good.example.com/", "http://bad.example.com/x"] ∧
    producer ["bad.example.com"] (FindAllString urlRE scenarioText) (0, []) =
      (2, ["http://good.example.com/", "http://bad.example.com/x"]) ∧
    mainWith scenarioText [] ["bad.example.com"] scenarioCheckAddr id =
      some { found := 2, counter := 2, totalErrors := 1,
             out := [.statusLine okColor 200 "http://good.example.com/",
                     .errorLine (some .ErrTimeout)],
             exit := 1 } ∧
    mainWith scenarioText [] ["bad.example.com"] scenarioCheckAddr List.reverse =
      some { found := 2, counter := 2, totalErrors := 1,
             out := [.errorLine (some .ErrTimeout),
                     .statusLine okColor 200 "http://good.example.com/"],
             exit := 1 } ∧
    mainWith scenarioText [] ["http://bad.example.com/x"] scenarioCheckAddr id =
      some { found := 2, counter := 1, totalErrors := 0,
             out := [.statusLine okColor 200 "http://good.example.com/"],
             exit := 0 } := by
  decide


/-! ## The matcher: locality, consumption, greediness -/

theorem repGreedy_append (p : Char → Bool) (c : Char) (rest : List Char) (hp : p c = false) :
    ∀ (max min : Nat) (xs : List Char),
      repGreedy p min max (xs ++ c :: rest) =
        (repGreedy p min max xs).map (fun m => (m.1, m.2 ++ c :: rest)) := by
  intro max
  induction max with
  | zero =>
    intro min xs
    by_cases h : min = 0 <;> simp [repGreedy, h]
  | succ max ih =>
    intro min xs
    cases xs with
    | nil => by_cases h : min = 0 <;> simp [repGreedy, h, hp]
    | cons x xs =>
      by_cases h : min = 0 <;> by_cases hx : p x = true <;>
        simp [repGreedy, h, hx, ih, List.map_map, Function.comp_def]

theorem starGreedy_append (p : Char → Bool) (c : Char) (rest : List Char) (hp : p c = false) :
    ∀ xs : List Char,
      starGreedy p (xs ++ c :: rest) =
        (starGreedy p xs).map (fun m => (m.1, m.2 ++ c :: rest)) := by
  intro xs
  induction xs with
  | nil => simp [starGreedy, hp]
  | cons x xs ih =>
    by_cases hx : p x = true <;> simp [starGreedy, hx, ih, List.map_map, Function.comp_def]

/-- Locality: a character that no part of `r` accepts and that is not a word
character acts as the end of the text. -/
theorem matchAll_append (c : Char) (rest : List Char) (hw : isWordChar c = false) :
    ∀ (r : Re) (prev : Option Char) (xs : List Char), Re.avoids c r = true →
      matchAll r prev (xs ++ c :: rest) =
        (matchAll r prev xs).map (fun m => (m.1, m.2 ++ c :: rest)) := by
  intro r
  induction r with
  | lit d =>
    intro prev xs h
    have hd : ¬ c = d := by
      intro e; simp [Re.avoids, e] at h
    cases xs with
    | nil => simp [matchAll, hd]
    | cons x xs => by_cases hx : x = d <;> simp [matchAll, hx]
  | seq a b iha ihb =>
    intro prev xs h
    simp only [Re.avoids, Bool.and_eq_true] at h
    simp only [matchAll, iha prev xs h.1, List.flatMap_map, List.map_flatMap]
    congr 1
    funext r1
    simp only [ihb _ _ h.2, List.map_map]
    rfl
  | opt a iha =>
    intro prev xs h
    simp only [Re.avoids] at h
    simp [matchAll, iha prev xs h]
  | rep p min max =>
    intro prev xs h
    simp only [Re.avoids, Bool.not_eq_true'] at h
    simp only [matchAll]
    exact repGreedy_append p c rest h max min xs
  | star p =>
    intro prev xs h
    simp only [Re.avoids, Bool.not_eq_true'] at h
    simp only [matchAll]
    exact starGreedy_append p c rest h xs
  | wordb =>
    intro prev xs _
    cases xs with
    | nil =>
      have h1 : isWordAt (some c) = false := by simp [isWordAt, hw]
      have h2 : isWordAt none = false := rfl
      simp only [matchAll, List.nil_append, List.head?_cons, List.head?_nil, h1, h2]
      by_cases hp : (isWordAt prev != false) = true <;> simp [hp]
    | cons x xs =>
      by_cases hp : (isWordAt prev != isWordAt (some x)) = true <;> simp [matchAll, hp]

theorem repGreedy_consumes (p : Char → Bool) :
    ∀ (max min : Nat) (cs : List Char), ∀ x ∈ repGreedy p min max cs,
      x.1 ++ x.2 = cs ∧ ∀ ch ∈ x.1, p ch = true := by
  intro max
  induction max with
  | zero =>
    intro min cs x hx
    by_cases h : min = 0
    · simp [repGreedy, h] at hx; simp [hx]
    · simp [repGreedy, h] at hx
  | succ max ih =>
    intro min cs x hx
    cases cs with
    | nil =>
      by_cases h : min = 0
      · simp [repGreedy, h] at hx; simp [hx]
      · simp [repGreedy, h] at hx
    | cons y ys =>
      simp only [repGreedy, List.mem_append] at hx
      rcases hx with hx | hx
      · by_cases hy : p y = true
        · simp only [hy, if_true, List.mem_map] at hx
          obtain ⟨z, hz, rfl⟩ := hx
          have := ih _ _ z hz
          refine ⟨by simp [this.1], ?_⟩
          intro ch hch
          simp only [List.mem_cons] at hch
          rcases hch with rfl | hch
          · exact hy
          · exact this.2 ch hch
        · simp [hy] at hx
      · by_cases h : min = 0
        · simp [h] at hx; simp [hx]
        · simp [h] at hx

theorem starGreedy_consumes (p : Char → Bool) :
    ∀ (cs : List Char), ∀ x ∈ starGreedy p cs,
      x.1 ++ x.2 = cs ∧ ∀ ch ∈ x.1, p ch = true := by
  intro cs
  induction cs with
  | nil =>
    intro x hx
    simp [starGreedy] at hx; simp [hx]
  | cons y ys ih =>
    intro x hx
    simp only [starGreedy, List.mem_append] at hx
    rcases hx with hx | hx
    · by_cases hy : p y = true
      · simp only [hy, if_true, List.mem_map] at hx
        obtain ⟨z, hz, rfl⟩ := hx
        have := ih z hz
        refine ⟨by simp [this.1], ?_⟩
        intro ch hch
        simp only [List.mem_cons] at hch
        rcases hch with rfl | hch
        · exact hy
        · exact this.2 ch hch
      · simp [hy] at hx
    · simp at hx; simp [hx]

/-- Every match splits the text into what it consumed and the rest, and
consumes only characters of the class `q` that contains the expression. -/
theorem matchAll_consumes (q : Char → Bool) :
    ∀ (r : Re), Re.within q r → ∀ (prev : Option Char) (cs : List Char),
      ∀ x ∈ matchAll r prev cs, x.1 ++ x.2 = cs ∧ ∀ ch ∈ x.1, q ch = true := by
  intro r
  induction r with
  | lit d =>
    intro h prev cs x hx
    cases cs with
    | nil => simp [matchAll] at hx
    | cons y ys =>
      by_cases hy : y = d
      · subst hy
        simp [matchAll] at hx
        subst hx
        simpa [Re.within] using h
      · simp [matchAll, hy] at hx
  | seq a b iha ihb =>
    intro h prev cs x hx
    simp only [matchAll, List.mem_flatMap, List.mem_map] at hx
    obtain ⟨r1, hr1, r2, hr2, rfl⟩ := hx
    have h1 := iha h.1 prev cs r1 hr1
    have h2 := ihb h.2 _ _ r2 hr2
    refine ⟨by simp [List.append_assoc, h2.1, h1.1], ?_⟩
    intro ch hch
    simp only [List.mem_append] at hch
    rcases hch with hch | hch
    · exact h1.2 ch hch
    · exact h2.2 ch hch
  | opt a iha =>
    intro h prev cs x hx
    simp only [matchAll, List.mem_append, List.mem_singleton] at hx
    rcases hx with hx | hx
    · exact iha h prev cs x hx
    · simp [hx]
  | rep p min max =>
    intro h prev cs x hx
    have := repGreedy_consumes p max min cs x hx
    exact ⟨this.1, fun ch hch => h ch (this.2 ch hch)⟩
  | star p =>
    intro h prev cs x hx
    have := starGreedy_consumes p cs x hx
    exact ⟨this.1, fun ch hch => h ch (this.2 ch hch)⟩
  | wordb =>
    intro _ prev cs x hx
    by_cases hp : (isWordAt prev != isWordAt cs.head?) = true
    · simp [matchAll, hp] at hx; simp [hx]
    · simp [matchAll, hp] at hx


/-! ## Facts about `urlRE` -/

theorem alnum_sub_tail (c : Char) (h : alnumClass c = true) : tailClass c = true := by
  simp [tailClass, h]

theorem host_sub_tail (c : Char) (h : hostClass c = true) : tailClass c = true := by
  simp only [hostClass, tailClass, Bool.or_eq_true] at h ⊢
  tauto

theorem word_sub_tail (c : Char) (h : isWordChar c = true) : tailClass c = true := by
  simp only [isWordChar, alnumClass, tailClass, Bool.or_eq_true, Bool.and_eq_true,
    decide_eq_true_eq, beq_iff_eq] at h ⊢
  rcases h with ((h | h) | h) | h
  · tauto
  · tauto
  · tauto
  · have : c = '_' := by
      rw [← Char.ofNat_toNat c, h]
    tauto

theorem delim_ne (c d : Char) (hc : isDelim c = true) (hd : tailClass d = true) : d ≠ c := by
  intro e
  subst e
  simp [isDelim, hd] at hc

theorem delim_not_word (c : Char) (hc : isDelim c = true) : isWordChar c = false := by
  rw [← Bool.not_eq_true]
  intro h
  simp [isDelim, word_sub_tail c h] at hc

theorem urlRE_avoids (c : Char) (hc : isDelim c = true) : Re.avoids c urlRE = true := by
  have hh : hostClass c = false := by
    rw [← Bool.not_eq_true]
    intro h
    simp [isDelim, host_sub_tail c h] at hc
  have ha : alnumClass c = false := by
    rw [← Bool.not_eq_true]
    intro h
    simp [isDelim, alnum_sub_tail c h] at hc
  have ht : tailClass c = false := by simpa [isDelim] using hc
  have hne : ∀ d, tailClass d = true → (d != c) = true := by
    intro d hd
    simpa using delim_ne c d hc hd
  simp only [urlRE, seqs, Re.avoids, hh, ha, ht, hne 'h' (by decide), hne 't' (by decide),
    hne 'p' (by decide), hne 's' (by decide), hne ':' (by decide), hne '/' (by decide),
    hne 'w' (by decide), hne '.' (by decide), Bool.not_false, Bool.and_self]

theorem urlRE_within : Re.within tailClass urlRE := by
  simp only [urlRE, seqs, Re.within]
  refine ⟨by decide, by decide, by decide, by decide, by decide, by decide, by decide, by decide,
    ⟨by decide, by decide, by decide, by decide⟩, host_sub_tail, by decide, alnum_sub_tail,
    trivial, fun _ h => h⟩

theorem matchAll_seq_lit (d : Char) (b : Re) (prev : Option Char) (cs : List Char) :
    matchAll (.seq (.lit d) b) prev cs =
      match cs with
      | [] => []
      | x :: xs =>
        if x = d then (matchAll b (some d) xs).map (fun r2 => (d :: r2.1, r2.2)) else [] := by
  cases cs with
  | nil => simp [matchAll]
  | cons x xs =>
    by_cases h : x = d
    · subst h
      simp [matchAll, lastChar]
    · simp [matchAll, h]

/-- The pattern starts with a literal, so the character before the match
position is irrelevant. -/
theorem matchAll_urlRE_prev (prev : Option Char) (cs : List Char) :
    matchAll urlRE prev cs = matchAll urlRE none cs :=
  (matchAll_seq_lit 'h' _ prev cs).trans (matchAll_seq_lit 'h' _ none cs).symm

theorem matchAt_urlRE_nil (prev : Option Char) : matchAt urlRE prev [] = none := by
  unfold matchAt
  rw [show matchAll urlRE prev [] = [] from matchAll_seq_lit 'h' _ prev []]
  rfl

theorem matchAt_urlRE_ne_nil (prev : Option Char) (cs : List Char) :
    matchAt urlRE prev cs ≠ some [] := by
  unfold matchAt
  rw [show matchAll urlRE prev cs = _ from matchAll_seq_lit 'h' _ prev cs]
  cases cs with
  | nil => simp
  | cons x xs =>
    by_cases h : x = 'h'
    · simp only [h, if_true, List.head?_map, Option.map_map]
      cases (matchAll _ (some 'h') xs).head? <;> simp
    · simp [h]

theorem head?_flatMap_some {α β : Type} (f : α → List β) (l : List α) (y : β)
    (h : (l.flatMap f).head? = some y) : ∃ x ∈ l, (f x).head? = some y := by
  induction l with
  | nil => simp at h
  | cons a l ih =>
    rw [List.flatMap_cons] at h
    cases hfa : f a with
    | nil =>
      rw [hfa, List.nil_append] at h
      obtain ⟨x, hx, hy⟩ := ih h
      exact ⟨x, List.mem_cons_of_mem _ hx, hy⟩
    | cons b bs =>
      rw [hfa] at h
      simp at h
      exact ⟨a, List.mem_cons_self _ _, by rw [hfa, ← h]; rfl⟩

theorem starGreedy_head (p : Char → Bool) (cs : List Char) (x : List Char × List Char)
    (h : (starGreedy p cs).head? = some x) : ∀ c, x.2.head? = some c → p c = false := by
  induction cs generalizing x with
  | nil =>
    simp [starGreedy] at h
    subst h
    simp
  | cons y ys ih =>
    by_cases hy : p y = true
    · simp only [starGreedy, hy, if_true] at h
      cases hs : starGreedy p ys with
      | nil =>
        exfalso
        cases ys <;> simp [starGreedy] at hs
      | cons z zs =>
        rw [hs] at h
        simp at h
        subst h
        exact ih z (by rw [hs]; rfl)
    · simp [starGreedy, hy] at h
      subst h
      intro c hc
      simp at hc
      subst hc
      simpa using hy

theorem seq_head_greedy (q : Char → Bool) (a b : Re)
    (hb : ∀ prev cs x, (matchAll b prev cs).head? = some x →
      ∀ c, x.2.head? = some c → q c = false) :
    ∀ prev cs x, (matchAll (.seq a b) prev cs).head? = some x →
      ∀ c, x.2.head? = some c → q c = false := by
  intro prev cs x h
  simp only [matchAll] at h
  obtain ⟨r1, _, h1⟩ := head?_flatMap_some _ _ _ h
  rw [List.head?_map] at h1
  cases h2 : (matchAll b (lastChar prev r1.1) r1.2).head? with
  | none => simp [h2] at h1
  | some r2 =>
    simp [h2] at h1
    subst h1
    exact hb _ _ r2 h2

/-- The reported match cannot be extended: the text after it does not start
with a character of the path class. -/
theorem urlRE_head_greedy (prev : Option Char) (cs : List Char) (x : List Char × List Char)
    (h : (matchAll urlRE prev cs).head? = some x) :
    ∀ c, x.2.head? = some c → tailClass c = false := by
  revert prev cs x
  unfold urlRE
  simp only [seqs]
  repeat apply seq_head_greedy
  intro prev cs x h
  exact starGreedy_head tailClass cs x h

/-- When `urlRE` matches the whole of `u`, the match reported at the start of
`u` is the whole of `u`. -/
theorem matchAt_of_matches (u : String) (h : Matches urlRE u) :
    matchAt urlRE none u.data = some u.data := by
  unfold Matches at h
  have hall := (matchAll_consumes tailClass urlRE urlRE_within none u.data _ h).2
  simp only at hall
  unfold matchAt
  cases hh : (matchAll urlRE none u.data).head? with
  | none =>
    rw [List.head?_eq_none_iff] at hh
    rw [hh] at h
    simp at h
  | some x =>
    have hx : x ∈ matchAll urlRE none u.data := List.mem_of_mem_head? hh
    have hc := (matchAll_consumes tailClass urlRE urlRE_within none u.data x hx).1
    have hg := urlRE_head_greedy none u.data x hh
    have h2 : x.2 = [] := by
      cases h2 : x.2 with
      | nil => rfl
      | cons c cs =>
        exfalso
        have hcm : c ∈ u.data := by
          rw [← hc, h2]
          simp
        have := hg c (by rw [h2]; rfl)
        rw [hall c hcm] at this
        exact Bool.noConfusion this
    rw [h2, List.append_nil] at hc
    simp [hc]


/-! ## `FindAllString` on delimited addresses -/

theorem matchAt_urlRE_prev (prev : Option Char) (cs : List Char) :
    matchAt urlRE prev cs = matchAt urlRE none cs := by
  unfold matchAt
  rw [matchAll_urlRE_prev]

/-- For `urlRE` the loop of `FindAll` depends neither on the character before
the position nor on the flag for an adjacent empty match. -/
theorem findAllAux_urlRE_norm (cs : List Char) :
    ∀ (prev : Option Char) (skip : Nat) (adj : Bool),
      findAllAux urlRE prev cs skip adj = findAllAux urlRE none cs skip false := by
  induction cs with
  | nil =>
    intro prev skip adj
    simp [findAllAux, matchAt_urlRE_nil]
  | cons x xs ih =>
    intro prev skip adj
    cases skip with
    | succ k =>
      simp only [findAllAux]
      rw [ih (some x) k adj, ih (some x) k false]
    | zero =>
      simp only [findAllAux]
      rw [matchAt_urlRE_prev prev]
      cases h : matchAt urlRE none (x :: xs) with
      | none => rfl
      | some m =>
        cases m with
        | nil => exact absurd h (matchAt_urlRE_ne_nil _ _)
        | cons c m => rfl

theorem findAllAux_skip_gap (g tl : List Char) (hg : noMatchStarts urlRE g tl = true) :
    findAllAux urlRE none (g ++ tl) 0 false = findAllAux urlRE none tl 0 false := by
  induction g with
  | nil => rfl
  | cons c g ih =>
    simp only [noMatchStarts, Bool.and_eq_true, Option.isNone_iff_eq_none] at hg
    rw [List.cons_append]
    simp only [findAllAux, hg.1]
    rw [findAllAux_urlRE_norm, ih hg.2]

theorem findAllAux_skip_match (m rest : List Char) :
    findAllAux urlRE none (m ++ rest) m.length false = findAllAux urlRE none rest 0 false := by
  induction m with
  | nil => rfl
  | cons x m ih =>
    rw [List.cons_append, List.length_cons]
    simp only [findAllAux]
    rw [findAllAux_urlRE_norm, ih]

/-- A whole match of `urlRE` followed by the end of the text or by a delimiter
is the match reported at its first character. -/
theorem matchAt_delimited (u : String) (h : Matches urlRE u) (tl : List Char)
    (htl : ∀ c, tl.head? = some c → isDelim c = true) :
    matchAt urlRE none (u.data ++ tl) = some u.data := by
  cases tl with
  | nil => rw [List.append_nil]; exact matchAt_of_matches u h
  | cons c rest =>
    have hc := htl c rfl
    unfold matchAt
    rw [matchAll_append c rest (delim_not_word c hc) urlRE none u.data (urlRE_avoids c hc),
      List.head?_map, Option.map_map]
    have := matchAt_of_matches u h
    unfold matchAt at this
    cases hh : (matchAll urlRE none u.data).head? with
    | none => simp [hh] at this
    | some x => simpa [hh] using this

theorem findAllAux_at_match (u : String) (h : Matches urlRE u) (tl : List Char)
    (htl : ∀ c, tl.head? = some c → isDelim c = true) :
    findAllAux urlRE none (u.data ++ tl) 0 false =
      u.data :: findAllAux urlRE none tl 0 false := by
  have hm := matchAt_delimited u h tl htl
  cases hu : u.data with
  | nil =>
    rw [hu] at hm
    exact absurd hm (matchAt_urlRE_ne_nil _ _)
  | cons x m =>
    rw [hu] at hm
    simp only [List.cons_append] at hm ⊢
    simp only [findAllAux, hm]
    rw [findAllAux_urlRE_norm, findAllAux_skip_match]

theorem assemble_data_cons (g : String) (s : String × String) (segs : List (String × String)) :
    (assemble g (s :: segs)).data = g.data ++ (s.1.data ++ (assemble s.2 segs).data) := by
  simp [assemble, String.data_append, List.append_assoc]

theorem findAllAux_assemble (segs : List (String × String)) :
    ∀ g : String, noMatchInGaps urlRE g segs = true →
      (∀ s ∈ segs, Matches urlRE s.1 ∧ startsDelim s.2 = true) → gapsNonEmpty segs = true →
      findAllAux urlRE none (assemble g segs).data 0 false = segs.map (fun s => s.1.data) := by
  induction segs with
  | nil =>
    intro g hg _ _
    have := findAllAux_skip_gap g.data [] hg
    rw [List.append_nil] at this
    rw [assemble, this]
    simp [findAllAux, matchAt_urlRE_nil]
  | cons s segs ih =>
    intro g hg hs hgaps
    simp only [noMatchInGaps, Bool.and_eq_true] at hg
    have hs1 := hs s (List.mem_cons_self _ _)
    have hrest : ∀ t ∈ segs, Matches urlRE t.1 ∧ startsDelim t.2 = true :=
      fun t ht => hs t (List.mem_cons_of_mem _ ht)
    have hgaps' : gapsNonEmpty segs = true := by
      cases segs with
      | nil => rfl
      | cons t segs =>
        simp only [gapsNonEmpty, Bool.and_eq_true] at hgaps
        exact hgaps.2
    have hga := hs1.2
    unfold startsDelim at hga
    have htl : ∀ c, (assemble s.2 segs).data.head? = some c → isDelim c = true := by
      intro c hc
      cases hd : s.2.data with
      | nil =>
        have he : s.2 = "" := String.ext hd
        cases segs with
        | nil =>
          rw [assemble, hd] at hc
          simp at hc
        | cons t segs =>
          simp only [gapsNonEmpty, Bool.and_eq_true, bne_iff_ne, ne_eq] at hgaps
          exact absurd he hgaps.1
      | cons d ds =>
        have : (assemble s.2 segs).data.head? = some d := by
          cases segs with
          | nil => rw [assemble, hd]; rfl
          | cons t segs => rw [assemble_data_cons, hd]; rfl
        rw [this] at hc
        injection hc with hc
        subst hc
        rw [hd] at hga
        exact hga
    rw [assemble_data_cons, findAllAux_skip_gap g.data _ hg.1,
      findAllAux_at_match s.1 hs1.1 _ htl, ih s.2 hg.2 hrest hgaps']
    rfl

/-- C7 (as stated, refuted): the text `http://a.b/http://c.d` contains the two
non-overlapping substrings `http://a.b` and `http://c.d`, each matching
`urlRE`, yet `FindAllString` returns one candidate, the whole text. -/
theorem C7_counterexample :
    Matches urlRE "http://a.b" ∧ Matches urlRE "http://c.d" ∧
    assemble "" [("http://a.b", "/"), ("http://c.d", "")] = "http://a.b/http://c.d" ∧
    FindAllString urlRE "http://a.b/http://c.d" = ["http://a.b/http://c.d"] ∧
    (FindAllString urlRE "http://a.b/http://c.d").length ≠ 2 := by
  decide

/-- C7 (amended): for every document `g₀ u₁ g₁ … u_N g_N` in which every `uᵢ`
matches `urlRE`, no match of `urlRE` starts at a position inside a gap, every
gap after a `uᵢ` is empty or starts with a character outside the path class of
the pattern, and every gap between two consecutive `uᵢ` is non-empty,
`FindAllString` returns exactly the `N` candidates `u₁, …, u_N`, in document
order, repeated addresses retained. -/
theorem C7_delimited_matches_extracted (g0 : String) (segs : List (String × String))
    (hquiet : noMatchInGaps urlRE g0 segs = true)
    (hsegs : ∀ s ∈ segs, Matches urlRE s.1 ∧ startsDelim s.2 = true)
    (hgaps : gapsNonEmpty segs = true) :
    FindAllString urlRE (assemble g0 segs) = segs.map Prod.fst ∧
    (FindAllString urlRE (assemble g0 segs)).length = segs.length := by
  have h : FindAllString urlRE (assemble g0 segs) = segs.map Prod.fst := by
    unfold FindAllString
    rw [findAllAux_assemble segs g0 hquiet hsegs hgaps, List.map_map]
    apply List.map_congr_left
    intro s _
    rfl
  exact ⟨h, by rw [h, List.length_map]⟩

theorem C7_delimited_matches_extracted_witness :
    noMatchInGaps urlRE "run http://localhost:8080/x then see "
      [("https://example.com/", ", the http spec: "), ("http://a.b", "\n"),
       ("https://example.com/", "")] = true ∧
    (∀ s ∈ [("https://example.com/", ", the http spec: "), ("http://a.b", "\n"),
            ("https://example.com/", "")],
      Matches urlRE s.1 ∧ startsDelim s.2 = true) ∧
    gapsNonEmpty [("https://example.com/", ", the http spec: "), ("http://a.b", "\n"),
                  ("https://example.com/", "")] = true ∧
    FindAllString urlRE (assemble "run http://localhost:8080/x then see "
        [("https://example.com/", ", the http spec: "), ("http://a.b", "\n"),
         ("https://example.com/", "")]) =
      ["https://example.com/", "http://a.b", "https://example.com/"] ∧
    (FindAllString urlRE (assemble "run http://localhost:8080/x then see "
        [("https://example.com/", ", the http spec: "), ("http://a.b", "\n"),
         ("https://example.com/", "")])).length = 3 :=
  ⟨by decide, by decide, by decide,
   C7_delimited_matches_extracted "run http://localhost:8080/x then see "
     [("https://example.com/", ", the http spec: "), ("http://a.b", "\n"),
      ("https://example.com/", "")] (by decide) (by decide) (by decide)⟩

end VerifyLinks
